import Mathlib

/-!
Verification of the PDF document question-answering pipeline (`app.py`).

A shallow embedding of the document-processing pipeline of the Streamlit
application in `app.py`, together with proofs of the specified properties.

Modelling conventions:

* The `tiktoken` tokenizer is external.  A text is represented by its token
  sequence (`List Nat`), i.e. by the value of `encoding.encode(text)`.
  `encoding.decode` is applied chunk-wise in the source only to turn a token
  list back into a string; all chunk-level bookkeeping in the source happens
  on token lists, which is what we model.  `count_tokens(text)` is the length
  of the token sequence.
* Python `dict`s are association lists (`List (String × α)`) with the Python
  insertion semantics: assignment to an existing key overwrites in place,
  assignment to a fresh key appends, and `dict.update` folds assignments.
* Model calls (`client.chat.completions.create`) are external.  The
  summarisation call is a function `String → Except String String`
  (it may raise).  The response of the relevance call, after `json.loads`, is
  modelled as `Option (List (String × Int))`: `none` means the response body
  was not valid JSON (`json.JSONDecodeError`), `some scores` means it parsed
  as a JSON object with the given entries.
-/

namespace DocQnA

/-! ## `split_text_into_chunks` (app.py lines 68–92)

The source iterates over `tokens`, flushing `current_chunk` whenever
`current_length >= max_tokens` *before* appending the next token, and flushes
the remainder after the loop.  The source variable `current_length` always
equals `len(current_chunk)`, so it is represented by `current_chunk.length`. -/

/-- The `for token in tokens` loop of `split_text_into_chunks`, with the
trailing `if current_chunk:` flush. -/
def chunkLoop (max_tokens : Nat) : List Nat → List Nat → List (List Nat)
  | [], current_chunk => if current_chunk = [] then [] else [current_chunk]
  | token :: tokens, current_chunk =>
    if current_chunk.length ≥ max_tokens then
      current_chunk :: chunkLoop max_tokens tokens [token]
    else
      chunkLoop max_tokens tokens (current_chunk ++ [token])

/-- Embeds `split_text_into_chunks(text, max_tokens)`, on the token sequence of
`text`.  Each returned chunk is the token sequence that the source decodes
into the chunk string. -/
def split_text_into_chunks (text_tokens : List Nat) (max_tokens : Nat) :
    List (List Nat) :=
  chunkLoop max_tokens text_tokens []

/-- Embeds `count_tokens(text) = len(encoding.encode(text))` (app.py lines 64–66). -/
def count_tokens (text_tokens : List Nat) : Nat :=
  text_tokens.length

/-- Embeds `extract_text_from_pdf` (app.py lines 94–109), after the per-page text of
the PDF has been concatenated into `full_text`: chunk only when the total
token count exceeds `max_chunk_tokens`, otherwise return the full text as the
single chunk with its total token count. -/
def extract_text_from_pdf (full_text : List Nat) (max_chunk_tokens : Nat) :
    List (List Nat) × List Nat :=
  let total_tokens := count_tokens full_text
  if total_tokens > max_chunk_tokens then
    let chunks := split_text_into_chunks full_text max_chunk_tokens
    (chunks, chunks.map count_tokens)
  else
    ([full_text], [total_tokens])

/-! ### Lemmas about `chunkLoop` -/

lemma chunkLoop_ne_nil (max_tokens : Nat) (tokens : List Nat)
    {current_chunk : List Nat} (h : current_chunk ≠ []) :
    chunkLoop max_tokens tokens current_chunk ≠ [] := by
  induction tokens generalizing current_chunk with
  | nil => simp [chunkLoop, h]
  | cons t ts ih =>
    rw [chunkLoop]
    split
    · exact List.cons_ne_nil _ _
    · exact ih (by simp)

lemma chunkLoop_length_le (max_tokens : Nat) (hm : 1 ≤ max_tokens)
    (tokens : List Nat) :
    ∀ current_chunk : List Nat, current_chunk.length ≤ max_tokens →
      ∀ c ∈ chunkLoop max_tokens tokens current_chunk, c.length ≤ max_tokens := by
  induction tokens with
  | nil =>
    intro cur hcur c hc
    rw [chunkLoop] at hc
    split at hc
    · simp at hc
    · simp at hc; simpa [hc] using hcur
  | cons t ts ih =>
    intro cur hcur c hc
    rw [chunkLoop] at hc
    split at hc
    next hge =>
      rcases List.mem_cons.mp hc with rfl | hc
      · exact hcur
      · exact ih [t] (by simpa using hm) c hc
    next hlt =>
      exact ih (cur ++ [t]) (by simp; omega) c hc

lemma chunkLoop_dropLast_length (max_tokens : Nat) (hm : 1 ≤ max_tokens)
    (tokens : List Nat) :
    ∀ current_chunk : List Nat, current_chunk.length ≤ max_tokens →
      ∀ c ∈ (chunkLoop max_tokens tokens current_chunk).dropLast,
        c.length = max_tokens := by
  induction tokens with
  | nil =>
    intro cur hcur c hc
    rw [chunkLoop] at hc
    split at hc <;> simp at hc
  | cons t ts ih =>
    intro cur hcur c hc
    rw [chunkLoop] at hc
    split at hc
    next hge =>
      have hrest : chunkLoop max_tokens ts [t] ≠ [] :=
        chunkLoop_ne_nil max_tokens ts (by simp)
      rcases hr : chunkLoop max_tokens ts [t] with _ | ⟨r, rs⟩
      · exact absurd hr hrest
      · rw [hr, List.dropLast_cons₂] at hc
        rcases List.mem_cons.mp hc with rfl | hc
        · omega
        · have := ih [t] (by simpa using hm) c
          rw [hr] at this
          exact this hc
    next hlt =>
      exact ih (cur ++ [t]) (by simp; omega) c hc

lemma chunkLoop_flatten (max_tokens : Nat) (tokens : List Nat) :
    ∀ current_chunk : List Nat,
      (chunkLoop max_tokens tokens current_chunk).flatten = current_chunk ++ tokens := by
  induction tokens with
  | nil =>
    intro cur
    rw [chunkLoop]
    split
    next h => simp [h]
    next h => simp
  | cons t ts ih =>
    intro cur
    rw [chunkLoop]
    split
    · simp [List.flatten, ih]
    · simp [ih]

/-! ## Python dictionaries as association lists

Python `dict` assignment `d[k] = v` overwrites in place when `k` is present
and appends otherwise; `d.update(d2)` performs the assignments of `d2` in
order; `k in d` is key membership; `list(d.keys())` is the key list in
insertion order. -/

/-- Python dict membership `k in d`. -/
def dictMem (d : List (String × α)) (k : String) : Bool :=
  d.any (fun p => p.1 == k)

/-- Python dict assignment `d[k] = v`. -/
def dictInsert (d : List (String × α)) (k : String) (v : α) : List (String × α) :=
  if dictMem d k then d.map (fun p => if p.1 == k then (k, v) else p)
  else d ++ [(k, v)]

/-- Python key listing `list(d.keys())`. -/
def dictKeys (d : List (String × α)) : List String :=
  d.map Prod.fst

/-- Python dict merging `d.update(d2)`. -/
def dictUpdate (d d2 : List (String × α)) : List (String × α) :=
  d2.foldl (fun acc p => dictInsert acc p.1 p.2) d

/-! ## `process_document_chunks` (app.py lines 128–146) -/

/-- The key chosen for chunk `i` (0-based) of a file split into `num_chunks`
chunks: `f"{file_name} (Part {i+1}/{len(chunks)})"` when `len(chunks) > 1`,
else the file name itself. -/
def chunk_name (file_name : String) (num_chunks i : Nat) : String :=
  if 1 < num_chunks then
    file_name ++ " (Part " ++ toString (i + 1) ++ "/" ++ toString num_chunks ++ ")"
  else
    file_name

/-- The three dictionaries built per document and also the three session-state
maps (`st.session_state.documents` / `summaries` / `token_counts`). -/
structure DocMaps where
  documents : List (String × String)
  summaries : List (String × String)
  token_counts : List (String × Nat)
deriving Repr, DecidableEq

/-- The `for i, (chunk, tokens) in enumerate(zip(chunks, chunk_tokens))` loop
of `process_document_chunks`.  `get_summary` models the summarisation model
call, which may raise (`.error`); an exception propagates out of the loop and
the partially built local dictionaries are discarded. -/
def chunksLoop (get_summary : String → Except String String) (file_name : String)
    (num_chunks : Nat) : List (String × Nat) → Nat → DocMaps → Except String DocMaps
  | [], _, acc => .ok acc
  | (chunk, tokens) :: rest, i, acc =>
    let name := chunk_name file_name num_chunks i
    let documents := dictInsert acc.documents name chunk
    let token_counts := dictInsert acc.token_counts name tokens
    match get_summary chunk with
    | .error e => .error e
    | .ok summary =>
        chunksLoop get_summary file_name num_chunks rest (i + 1)
          ⟨documents, dictInsert acc.summaries name summary, token_counts⟩

/-- Embeds `process_document_chunks(file_name, chunks, chunk_tokens)`: builds the
documents, summaries and token-count dictionaries (initially empty) over the
zipped chunk/token lists. -/
def process_document_chunks (get_summary : String → Except String String)
    (file_name : String) (chunks : List String) (chunk_tokens : List Nat) :
    Except String DocMaps :=
  chunksLoop get_summary file_name chunks.length (chunks.zip chunk_tokens) 0 ⟨[], [], []⟩

/-! ## `select_relevant_document` (app.py lines 148–175) -/

/-- The uncaught Python exceptions of `select_relevant_document`:
`ValueError` from `max()` on an empty sequence and `IndexError` from
`list(summaries.keys())[0]` on an empty list.  Only `json.JSONDecodeError`
is caught by the `except` clause. -/
inductive PyError where
  | valueError
  | indexError
deriving Repr, DecidableEq

/-- Embeds `max(relevance_scores.items(), key=lambda x: x[1])`: Python `max` scans
left to right and replaces the current best only on a strictly larger key,
so ties keep the earliest item; on an empty sequence it raises. -/
def maxByScore : List (String × Int) → Option (String × Int)
  | [] => none
  | x :: xs => some (xs.foldl (fun best p => if best.2 < p.2 then p else best) x)

/-- Embeds `select_relevant_document(question, summaries)`.  `model` is the stream of
chat-completion responses, already passed through `json.loads`: the response
to the `calls`-th call is `model calls`, where `none` stands for a body that
is not valid JSON (raising `json.JSONDecodeError`) and `some scores` for a
parsed JSON object.  The returned `Nat` is the updated number of model calls
made: the source issues exactly one `client.chat.completions.create` call and
the `except` branch does not retry it. -/
def select_relevant_document (summaries : List (String × String))
    (model : Nat → Option (List (String × Int))) (calls : Nat) :
    Except PyError (String × List (String × Int)) × Nat :=
  let response := model calls
  let calls := calls + 1
  (match response with
   | some relevance_scores =>
     match maxByScore relevance_scores with
     | some most_relevant => .ok (most_relevant.1, relevance_scores)
     | none => .error .valueError
   | none =>
     match summaries with
     | (k, _) :: _ => .ok (k, summaries.map (fun p => (p.1, (0 : Int))))
     | [] => .error .indexError,
   calls)

/-! ## The upload-processing loop (app.py lines 227–275) -/

/-- One uploaded file, as the upload loop sees it: its `name` and the outcome
of `extract_text_from_pdf(BytesIO(file.read()))` — `.error` when PDF parsing
raises, `.ok (chunks, chunk_tokens)` otherwise. -/
structure UploadedFile where
  name : String
  extract : Except String (List String × List Nat)

/-- The body of `for file in uploaded_files`: a file whose name is already a
key of `st.session_state.documents` is skipped; an exception anywhere in the
per-file processing (PDF parsing or a summarisation model call) is caught by
the per-file `except`, and the three session maps are updated together only
after `process_document_chunks` returns for the whole file. -/
def upload_one (get_summary : String → Except String String)
    (state : DocMaps) (file : UploadedFile) : DocMaps :=
  if dictMem state.documents file.name then state
  else
    match file.extract with
    | .error _ => state
    | .ok (chunks, chunk_tokens) =>
      match process_document_chunks get_summary file.name chunks chunk_tokens with
      | .error _ => state
      | .ok maps =>
          { documents := dictUpdate state.documents maps.documents
            summaries := dictUpdate state.summaries maps.summaries
            token_counts := dictUpdate state.token_counts maps.token_counts }

/-- The whole `for file in uploaded_files` loop over the session state. -/
def process_uploaded_files (get_summary : String → Except String String)
    (state : DocMaps) (files : List UploadedFile) : DocMaps :=
  files.foldl (upload_one get_summary) state

/-- The session-state invariant: the summaries and token-count maps have
exactly the keys of the documents map. -/
def keysAligned (state : DocMaps) : Prop :=
  dictKeys state.summaries = dictKeys state.documents ∧
    dictKeys state.token_counts = dictKeys state.documents

/-! ## Key-set lemmas for the dict model -/

lemma dictMem_iff (d : List (String × α)) (k : String) :
    dictMem d k = true ↔ k ∈ dictKeys d := by
  simp [dictMem, dictKeys, List.any_eq_true, List.mem_map]

lemma dictKeys_dictInsert (d : List (String × α)) (k : String) (v : α) :
    dictKeys (dictInsert d k v) =
      if k ∈ dictKeys d then dictKeys d else dictKeys d ++ [k] := by
  rw [dictInsert]
  by_cases h : dictMem d k = true
  · rw [if_pos h, if_pos ((dictMem_iff d k).mp h)]
    simp only [dictKeys, List.map_map]
    refine List.map_congr_left ?_
    intro p _
    by_cases hk : p.1 = k
    · simp [Function.comp, hk]
    · simp [Function.comp, hk]
  · rw [if_neg h, if_neg (fun hc => h ((dictMem_iff d k).mpr hc))]
    simp [dictKeys]

/-- The key list resulting from a sequence of dict assignments with the given
keys, starting from key list `ks`. -/
def keysUnion (ks : List String) : List String → List String
  | [] => ks
  | k :: rest => keysUnion (if k ∈ ks then ks else ks ++ [k]) rest

lemma mem_keysUnion_left (ks2 : List String) :
    ∀ (ks : List String) (k : String), k ∈ ks → k ∈ keysUnion ks ks2 := by
  induction ks2 with
  | nil => intro ks k h; exact h
  | cons k2 rest ih =>
    intro ks k h
    rw [keysUnion]
    refine ih _ k ?_
    split
    · exact h
    · exact List.mem_append_left _ h

lemma dictKeys_dictUpdate (d2 : List (String × α)) :
    ∀ d : List (String × α),
      dictKeys (dictUpdate d d2) = keysUnion (dictKeys d) (dictKeys d2) := by
  induction d2 with
  | nil => intro d; rfl
  | cons p d2 ih =>
    intro d
    have : dictUpdate d (p :: d2) = dictUpdate (dictInsert d p.1 p.2) d2 := rfl
    rw [this, ih, dictKeys_dictInsert]
    rfl

/-! ## Claim theorems: chunking -/

/-- Claim C1: for `max_tokens ≥ 1`, every chunk produced by
`split_text_into_chunks` holds at most `max_tokens` tokens; every chunk but
the last holds exactly `max_tokens` tokens (the token counts are those of the
chunk token sequences, i.e. up to re-encoding of decoded text). -/
theorem split_chunks_respect_max_tokens (text_tokens : List Nat) (max_tokens : Nat)
    (hm : 1 ≤ max_tokens) :
    (∀ c ∈ split_text_into_chunks text_tokens max_tokens, count_tokens c ≤ max_tokens) ∧
    (∀ c ∈ (split_text_into_chunks text_tokens max_tokens).dropLast,
        count_tokens c = max_tokens) :=
  ⟨fun c hc => chunkLoop_length_le max_tokens hm text_tokens [] (by simp) c hc,
   fun c hc => chunkLoop_dropLast_length max_tokens hm text_tokens [] (by simp) c hc⟩

theorem split_chunks_respect_max_tokens_witness :
    1 ≤ 2 ∧
      ((∀ c ∈ split_text_into_chunks [10, 11, 12, 13, 14] 2, count_tokens c ≤ 2) ∧
        (∀ c ∈ (split_text_into_chunks [10, 11, 12, 13, 14] 2).dropLast,
            count_tokens c = 2)) :=
  ⟨by decide, split_chunks_respect_max_tokens [10, 11, 12, 13, 14] 2 (by decide)⟩

/-- Claim C5: the chunks returned by `split_text_into_chunks` partition the
token sequence of the input text: concatenating the token sequences of the chunks
gives back `encoding.encode(text)` exactly — no token is dropped and none is
duplicated. -/
theorem split_chunks_partition (text_tokens : List Nat) (max_tokens : Nat) :
    (split_text_into_chunks text_tokens max_tokens).flatten = text_tokens := by
  simpa using chunkLoop_flatten max_tokens text_tokens []

/-- Claim C4: when the total token count of the extracted text is at most the
configured `max_chunk_tokens`, `extract_text_from_pdf` returns exactly one
chunk — the full text — paired with its total token count. -/
theorem extract_under_threshold_single_chunk (full_text : List Nat)
    (max_chunk_tokens : Nat) (h : count_tokens full_text ≤ max_chunk_tokens) :
    extract_text_from_pdf full_text max_chunk_tokens =
      ([full_text], [count_tokens full_text]) := by
  have hn : ¬ count_tokens full_text > max_chunk_tokens := Nat.not_lt.mpr h
  simp [extract_text_from_pdf, hn]

theorem extract_under_threshold_single_chunk_witness :
    count_tokens [1, 2, 3] ≤ 5 ∧
      extract_text_from_pdf [1, 2, 3] 5 = ([[1, 2, 3]], [count_tokens [1, 2, 3]]) :=
  ⟨by decide, extract_under_threshold_single_chunk [1, 2, 3] 5 (by decide)⟩

/-! ## Keys produced by `process_document_chunks` -/

/-- The chunk names generated for `len` consecutive chunks starting at
0-based index `i`, for a document split into `num_chunks` chunks. -/
def chunkNames (file_name : String) (num_chunks : Nat) : Nat → Nat → List String
  | _, 0 => []
  | i, len + 1 =>
    chunk_name file_name num_chunks i :: chunkNames file_name num_chunks (i + 1) len

lemma chunksLoop_ok_keys (get_summary : String → Except String String)
    (file_name : String) (num_chunks : Nat) :
    ∀ (pairs : List (String × Nat)) (i : Nat) (acc maps : DocMaps),
      chunksLoop get_summary file_name num_chunks pairs i acc = .ok maps →
      dictKeys maps.documents =
          keysUnion (dictKeys acc.documents) (chunkNames file_name num_chunks i pairs.length) ∧
        dictKeys maps.summaries =
          keysUnion (dictKeys acc.summaries) (chunkNames file_name num_chunks i pairs.length) ∧
        dictKeys maps.token_counts =
          keysUnion (dictKeys acc.token_counts) (chunkNames file_name num_chunks i pairs.length) := by
  intro pairs
  induction pairs with
  | nil =>
    intro i acc maps h
    simp only [chunksLoop, Except.ok.injEq] at h
    subst h
    exact ⟨rfl, rfl, rfl⟩
  | cons p rest ih =>
    intro i acc maps h
    obtain ⟨chunk, tokens⟩ := p
    simp only [chunksLoop] at h
    cases hg : get_summary chunk with
    | error e => rw [hg] at h; exact absurd h (by simp)
    | ok summary =>
      rw [hg] at h
      obtain ⟨h1, h2, h3⟩ := ih (i + 1) _ maps h
      refine ⟨?_, ?_, ?_⟩ <;>
        simp only [List.length_cons, chunkNames, keysUnion, h1, h2, h3,
          dictKeys_dictInsert]

/-- If `process_document_chunks` returns, its three maps have equal key
lists. -/
lemma process_document_chunks_keysAligned (get_summary : String → Except String String)
    (file_name : String) (chunks : List String) (chunk_tokens : List Nat)
    (maps : DocMaps)
    (h : process_document_chunks get_summary file_name chunks chunk_tokens = .ok maps) :
    dictKeys maps.summaries = dictKeys maps.documents ∧
      dictKeys maps.token_counts = dictKeys maps.documents := by
  obtain ⟨h1, h2, h3⟩ := chunksLoop_ok_keys get_summary file_name chunks.length
    (chunks.zip chunk_tokens) 0 ⟨[], [], []⟩ maps h
  rw [h1, h2, h3]
  exact ⟨rfl, rfl⟩

lemma keysAligned_upload_one (get_summary : String → Except String String)
    (state : DocMaps) (file : UploadedFile) (h : keysAligned state) :
    keysAligned (upload_one get_summary state file) := by
  rw [upload_one]
  split
  · exact h
  · split
    · exact h
    · split
      · exact h
      next maps hok =>
        obtain ⟨hs, ht⟩ := h
        obtain ⟨hms, hmt⟩ := process_document_chunks_keysAligned _ _ _ _ _ hok
        refine ⟨?_, ?_⟩ <;>
          simp only [dictKeys_dictUpdate, hs, ht, hms, hmt]

lemma keysAligned_process_uploaded_files (get_summary : String → Except String String)
    (files : List UploadedFile) :
    ∀ state : DocMaps, keysAligned state →
      keysAligned (process_uploaded_files get_summary state files) := by
  induction files with
  | nil => intro state h; exact h
  | cons f fs ih =>
    intro state h
    exact ih _ (keysAligned_upload_one get_summary state f h)

/-- Claim C3: every upload-processing step keeps the key sets of the three
session maps equal — `process_document_chunks` builds its three maps over the
same chunk names, and the session state applies the three `update`s
together, so every key of `documents` is also a key of `summaries` and of
`token_counts`. -/
theorem upload_keeps_maps_aligned (get_summary : String → Except String String)
    (state : DocMaps) (h : keysAligned state) :
    (∀ file, keysAligned (upload_one get_summary state file)) ∧
      (∀ files, keysAligned (process_uploaded_files get_summary state files)) :=
  ⟨fun file => keysAligned_upload_one get_summary state file h,
   fun files => keysAligned_process_uploaded_files get_summary files state h⟩

theorem upload_keeps_maps_aligned_witness :
    keysAligned ⟨[], [], []⟩ ∧
      keysAligned
        (upload_one (fun s => .ok s) ⟨[], [], []⟩
          ⟨"a.pdf", .ok (["hello", "world"], [1, 1])⟩) :=
  ⟨⟨rfl, rfl⟩,
   (upload_keeps_maps_aligned (fun s => .ok s) ⟨[], [], []⟩ ⟨rfl, rfl⟩).1
     ⟨"a.pdf", .ok (["hello", "world"], [1, 1])⟩⟩

/-! ## Claim theorems: the upload loop -/

/-- Claim C7: an exception while processing one uploaded file — PDF parsing
(`file.extract` raises) or a summarisation model call inside
`process_document_chunks` — is caught for that file alone: the session state
is unchanged by that file (it contributes no entries to `documents`,
`summaries` or `token_counts`) and the loop continues with the remaining
files exactly as if the failed file were absent. -/
theorem failed_file_contributes_nothing (get_summary : String → Except String String)
    (state : DocMaps) (file : UploadedFile) (rest : List UploadedFile)
    (hfail : (∃ e, file.extract = .error e) ∨
      (∃ chunks chunk_tokens e, file.extract = .ok (chunks, chunk_tokens) ∧
        process_document_chunks get_summary file.name chunks chunk_tokens = .error e)) :
    upload_one get_summary state file = state ∧
      process_uploaded_files get_summary state (file :: rest) =
        process_uploaded_files get_summary state rest := by
  have h1 : upload_one get_summary state file = state := by
    rw [upload_one]
    split
    · rfl
    · rcases hfail with ⟨e, he⟩ | ⟨chunks, chunk_tokens, e, hex, hpe⟩
      · rw [he]
      · rw [hex]
        simp only [hpe]
  refine ⟨h1, ?_⟩
  show (rest.foldl (upload_one get_summary) (upload_one get_summary state file)) = _
  rw [h1]
  rfl

theorem failed_file_contributes_nothing_witness :
    upload_one (fun s => .ok s) ⟨[("doc", "d")], [("doc", "s")], [("doc", 3)]⟩
        ⟨"bad.pdf", .error "PdfReadError"⟩ =
      ⟨[("doc", "d")], [("doc", "s")], [("doc", 3)]⟩ :=
  (failed_file_contributes_nothing (fun s => .ok s)
    ⟨[("doc", "d")], [("doc", "s")], [("doc", 3)]⟩
    ⟨"bad.pdf", .error "PdfReadError"⟩ []
    (Or.inl ⟨"PdfReadError", rfl⟩)).1

/-- Claim C8: a file whose name is already a key of the `documents` session map
is skipped — the upload step leaves all three session maps unchanged — and an
upload step never deletes an entry: every key present before the step is
still present after it, in each of the three maps. -/
theorem duplicate_upload_skipped (get_summary : String → Except String String)
    (state : DocMaps) (file : UploadedFile) :
    (dictMem state.documents file.name = true →
        upload_one get_summary state file = state) ∧
      (∀ k, (k ∈ dictKeys state.documents →
              k ∈ dictKeys (upload_one get_summary state file).documents) ∧
            (k ∈ dictKeys state.summaries →
              k ∈ dictKeys (upload_one get_summary state file).summaries) ∧
            (k ∈ dictKeys state.token_counts →
              k ∈ dictKeys (upload_one get_summary state file).token_counts)) := by
  constructor
  · intro hmem
    rw [upload_one, if_pos hmem]
  · intro k
    rw [upload_one]
    split
    · exact ⟨id, id, id⟩
    · split
      · exact ⟨id, id, id⟩
      · split
        · exact ⟨id, id, id⟩
        · refine ⟨fun hk => ?_, fun hk => ?_, fun hk => ?_⟩ <;>
            simpa only [dictKeys_dictUpdate] using mem_keysUnion_left _ _ k hk

theorem duplicate_upload_skipped_witness :
    upload_one (fun s => .ok s) ⟨[("doc", "d")], [("doc", "s")], [("doc", 3)]⟩
        ⟨"doc", .ok (["text"], [1])⟩ =
      ⟨[("doc", "d")], [("doc", "s")], [("doc", 3)]⟩ ∧
      "doc" ∈ dictKeys
        (upload_one (fun s => .ok s) ⟨[("doc", "d")], [("doc", "s")], [("doc", 3)]⟩
          ⟨"other.pdf", .ok (["text"], [1])⟩).documents :=
  ⟨(duplicate_upload_skipped (fun s => .ok s)
      ⟨[("doc", "d")], [("doc", "s")], [("doc", 3)]⟩
      ⟨"doc", .ok (["text"], [1])⟩).1 (by decide),
   ((duplicate_upload_skipped (fun s => .ok s)
      ⟨[("doc", "d")], [("doc", "s")], [("doc", 3)]⟩
      ⟨"other.pdf", .ok (["text"], [1])⟩).2 "doc").1 (by decide)⟩

/-! ## Claim theorems: relevance selection -/

lemma foldl_maxByScore_spec (xs : List (String × Int)) :
    ∀ x : String × Int,
      (xs.foldl (fun best p => if best.2 < p.2 then p else best) x = x ∨
        xs.foldl (fun best p => if best.2 < p.2 then p else best) x ∈ xs) ∧
      x.2 ≤ (xs.foldl (fun best p => if best.2 < p.2 then p else best) x).2 ∧
      ∀ p ∈ xs, p.2 ≤ (xs.foldl (fun best p => if best.2 < p.2 then p else best) x).2 := by
  induction xs with
  | nil => intro x; exact ⟨Or.inl rfl, le_refl _, by simp⟩
  | cons y ys ih =>
    intro x
    simp only [List.foldl_cons]
    by_cases hxy : x.2 < y.2
    · rw [if_pos hxy]
      obtain ⟨hmem, hle, hall⟩ := ih y
      refine ⟨?_, le_trans (le_of_lt hxy) hle, ?_⟩
      · rcases hmem with h | h
        · exact Or.inr (by simp [h])
        · exact Or.inr (by simp [h])
      · intro p hp
        rcases List.mem_cons.mp hp with rfl | hp
        · exact hle
        · exact hall p hp
    · rw [if_neg hxy]
      obtain ⟨hmem, hle, hall⟩ := ih x
      refine ⟨hmem.imp id (fun h => by simp [h]), hle, ?_⟩
      intro p hp
      rcases List.mem_cons.mp hp with rfl | hp
      · exact le_trans (le_of_not_lt hxy) hle
      · exact hall p hp

lemma maxByScore_spec (scores : List (String × Int)) (b : String × Int)
    (h : maxByScore scores = some b) :
    b ∈ scores ∧ ∀ p ∈ scores, p.2 ≤ b.2 := by
  cases scores with
  | nil => simp [maxByScore] at h
  | cons x xs =>
    simp only [maxByScore, Option.some.injEq] at h
    obtain ⟨hmem, hle, hall⟩ := foldl_maxByScore_spec xs x
    subst h
    refine ⟨?_, ?_⟩
    · rcases hmem with h | h
      · rw [h]; exact List.mem_cons_self x xs
      · exact List.mem_cons_of_mem x h
    · intro p hp
      rcases List.mem_cons.mp hp with rfl | hp
      · exact hle
      · exact hall p hp

/-- Claim C2: when the response body of the relevance model is not valid JSON and
the summaries map is non-empty, `select_relevant_document` falls back to the
first key of the summaries map, reports a score map sending every summaries
key to `0`, and makes exactly one model call (no retry). -/
theorem malformed_json_falls_back_to_first (summaries : List (String × String))
    (model : Nat → Option (List (String × Int))) (calls : Nat)
    (hne : summaries ≠ []) (hjson : model calls = none) :
    select_relevant_document summaries model calls =
      (.ok ((summaries.head hne).1, summaries.map (fun p => (p.1, (0 : Int)))),
        calls + 1) := by
  cases summaries with
  | nil => exact absurd rfl hne
  | cons p rest =>
    simp only [select_relevant_document, hjson, List.head_cons]

theorem malformed_json_falls_back_to_first_witness :
    ([("d1", "s1"), ("d2", "s2")] : List (String × String)) ≠ [] ∧
      select_relevant_document [("d1", "s1"), ("d2", "s2")] (fun _ => none) 0 =
        (.ok ("d1", [("d1", 0), ("d2", 0)]), 1) :=
  ⟨by decide,
   malformed_json_falls_back_to_first [("d1", "s1"), ("d2", "s2")]
     (fun _ => none) 0 (by decide) rfl⟩

/-- Claim C6: when the model response parses as a non-empty JSON score map,
`select_relevant_document` returns a document name whose score is at least
every score in the map (the maximum), together with the full parsed score
map. -/
theorem relevance_picks_max_score (summaries : List (String × String))
    (model : Nat → Option (List (String × Int))) (calls : Nat)
    (scores : List (String × Int))
    (h : model calls = some scores) (hne : scores ≠ []) :
    ∃ best : String × Int,
      (select_relevant_document summaries model calls).1 = .ok (best.1, scores) ∧
        best ∈ scores ∧ ∀ p ∈ scores, p.2 ≤ best.2 := by
  cases hsc : maxByScore scores with
  | none =>
    cases scores with
    | nil => exact absurd rfl hne
    | cons x xs => simp [maxByScore] at hsc
  | some b =>
    obtain ⟨hmem, hall⟩ := maxByScore_spec scores b hsc
    exact ⟨b, by simp [select_relevant_document, h, hsc], hmem, hall⟩

theorem relevance_picks_max_score_witness :
    (fun _ : Nat => some [("a", (3 : Int)), ("b", 5), ("c", 4)]) 0 =
        some [("a", (3 : Int)), ("b", 5), ("c", 4)] ∧
      ([("a", (3 : Int)), ("b", 5), ("c", 4)] : List (String × Int)) ≠ [] ∧
      ∃ best : String × Int,
        (select_relevant_document [("d1", "s1")]
            (fun _ => some [("a", (3 : Int)), ("b", 5), ("c", 4)]) 0).1 =
            .ok (best.1, [("a", (3 : Int)), ("b", 5), ("c", 4)]) ∧
          best ∈ [("a", (3 : Int)), ("b", 5), ("c", 4)] ∧
          ∀ p ∈ [("a", (3 : Int)), ("b", 5), ("c", 4)], p.2 ≤ best.2 :=
  ⟨rfl, by decide,
   relevance_picks_max_score [("d1", "s1")]
     (fun _ => some [("a", (3 : Int)), ("b", 5), ("c", 4)]) 0
     [("a", (3 : Int)), ("b", 5), ("c", 4)] rfl (by decide)⟩

/-- Claim C10: the first-document fallback fires only on a JSON decoding
error.  A response that parses as an *empty* JSON object does not fall back:
`max()` raises an uncaught `ValueError`; and with an empty summaries map the
fallback path itself raises an uncaught `IndexError` from
`list(summaries.keys())[0]`. -/
theorem fallback_only_on_decode_error (summaries : List (String × String))
    (model : Nat → Option (List (String × Int))) (calls : Nat) :
    (model calls = some [] →
        (select_relevant_document summaries model calls).1 = .error .valueError) ∧
      (summaries = [] → model calls = none →
        (select_relevant_document summaries model calls).1 = .error .indexError) := by
  constructor
  · intro h
    simp [select_relevant_document, h, maxByScore]
  · intro hs h
    subst hs
    simp [select_relevant_document, h]

theorem fallback_only_on_decode_error_witness :
    (select_relevant_document [("d1", "s1")] (fun _ => some []) 0).1 =
        .error .valueError ∧
      (select_relevant_document [] (fun _ => none) 0).1 = .error .indexError :=
  ⟨(fallback_only_on_decode_error [("d1", "s1")] (fun _ => some []) 0).1 rfl,
   (fallback_only_on_decode_error [] (fun _ => none) 0).2 rfl rfl⟩

/-! ## Injectivity of the decimal rendering used in chunk names

The part names `f"{file_name} (Part {i+1}/{len(chunks)})"` are pairwise
distinct because the decimal rendering of a natural number (`Nat.repr`,
which is what `toString` uses) is injective.  We prove this by relating
`Nat.toDigitsCore` to `Nat.digits`. -/

lemma toDigitsCore_append (b : Nat) :
    ∀ (f n : Nat) (l : List Char),
      Nat.toDigitsCore b f n l = Nat.toDigitsCore b f n [] ++ l := by
  intro f
  induction f with
  | zero => intro n l; simp [Nat.toDigitsCore]
  | succ f ih =>
    intro n l
    simp only [Nat.toDigitsCore]
    by_cases h : n / b = 0
    · simp [h]
    · rw [if_neg h, if_neg h, ih (n / b) (Nat.digitChar (n % b) :: l),
        ih (n / b) [Nat.digitChar (n % b)], List.append_assoc]
      rfl

lemma toDigitsCore_eq_digits :
    ∀ f n : Nat, 0 < n → n ≤ f →
      Nat.toDigitsCore 10 f n [] = ((Nat.digits 10 n).map Nat.digitChar).reverse := by
  intro f
  induction f with
  | zero => intro n hn hf; omega
  | succ f ih =>
    intro n hn hf
    simp only [Nat.toDigitsCore]
    by_cases h : n / 10 = 0
    · rw [if_pos h, Nat.digits_def' (b := 10) (by norm_num) hn, h]
      simp
    · rw [if_neg h, toDigitsCore_append,
        ih (n / 10) (Nat.pos_of_ne_zero h)
          (by have := Nat.div_lt_self hn (show 1 < 10 by norm_num); omega),
        Nat.digits_def' (b := 10) (by norm_num) hn]
      simp

lemma repr_pos_eq (n : Nat) (hn : 0 < n) :
    Nat.repr n = (((Nat.digits 10 n).map Nat.digitChar).reverse).asString := by
  rw [Nat.repr, Nat.toDigits, toDigitsCore_eq_digits (n + 1) n hn (Nat.le_succ n)]

lemma digitChar_inj_lt : ∀ a < 10, ∀ b < 10, Nat.digitChar a = Nat.digitChar b → a = b := by
  decide

lemma map_digitChar_inj :
    ∀ l1 l2 : List Nat, (∀ d ∈ l1, d < 10) → (∀ d ∈ l2, d < 10) →
      l1.map Nat.digitChar = l2.map Nat.digitChar → l1 = l2 := by
  intro l1
  induction l1 with
  | nil => intro l2 _ _ h; cases l2 <;> simp_all
  | cons a l1 ih =>
    intro l2 h1 h2 h
    cases l2 with
    | nil => simp at h
    | cons b l2 =>
      simp only [List.map_cons, List.cons.injEq] at h
      have hab : a = b :=
        digitChar_inj_lt a (h1 a (by simp)) b (h2 b (by simp)) h.1
      rw [hab, ih l2 (fun d hd => h1 d (by simp [hd])) (fun d hd => h2 d (by simp [hd])) h.2]

lemma digits_ne_zero_singleton (b : Nat) (hb : 0 < b) : Nat.digits 10 b ≠ [0] := by
  intro h
  have hb' := Nat.ofDigits_digits 10 b
  rw [h] at hb'
  simp [Nat.ofDigits] at hb'
  omega

lemma repr_pos_ne_repr_zero (b : Nat) (hb : 0 < b) : Nat.repr b ≠ Nat.repr 0 := by
  intro h
  have hd := congrArg String.data h
  rw [repr_pos_eq b hb] at hd
  have hd' : ((Nat.digits 10 b).map Nat.digitChar).reverse = ['0'] := hd
  have hm : (Nat.digits 10 b).map Nat.digitChar = ['0'] := by
    have := congrArg List.reverse hd'
    simpa using this
  have : Nat.digits 10 b = [0] := by
    refine map_digitChar_inj _ [0]
      (fun d hd => Nat.digits_lt_base (by norm_num) hd) (by simp) ?_
    simpa using hm
  exact digits_ne_zero_singleton b hb this

lemma repr_injective : Function.Injective Nat.repr := by
  intro a b h
  rcases Nat.eq_zero_or_pos a with rfl | ha
  · rcases Nat.eq_zero_or_pos b with rfl | hb
    · rfl
    · exact absurd h.symm (repr_pos_ne_repr_zero b hb)
  · rcases Nat.eq_zero_or_pos b with rfl | hb
    · exact absurd h (repr_pos_ne_repr_zero a ha)
    · have hd := congrArg String.data h
      rw [repr_pos_eq a ha, repr_pos_eq b hb] at hd
      have hd' : ((Nat.digits 10 a).map Nat.digitChar).reverse =
          ((Nat.digits 10 b).map Nat.digitChar).reverse := hd
      have hm : (Nat.digits 10 a).map Nat.digitChar =
          (Nat.digits 10 b).map Nat.digitChar := by
        have := congrArg List.reverse hd'
        simpa using this
      have hD := map_digitChar_inj _ _
        (fun d hd => Nat.digits_lt_base (by norm_num) hd)
        (fun d hd => Nat.digits_lt_base (by norm_num) hd) hm
      have := congrArg (Nat.ofDigits 10) hD
      rw [Nat.ofDigits_digits, Nat.ofDigits_digits] at this
      exact_mod_cast this

lemma chunk_name_inj (file_name : String) (num_chunks : Nat) (hn : 1 < num_chunks)
    {i j : Nat}
    (h : chunk_name file_name num_chunks i = chunk_name file_name num_chunks j) :
    i = j := by
  rw [chunk_name, chunk_name, if_pos hn, if_pos hn] at h
  have hd := congrArg String.data h
  simp only [String.data_append, List.append_assoc] at hd
  have h1 := List.append_cancel_left hd
  have h2 := List.append_cancel_left h1
  have h3 := List.append_cancel_right h2
  have h4 : Nat.repr (i + 1) = Nat.repr (j + 1) := String.ext h3
  have := repr_injective h4
  omega

lemma mem_chunkNames (file_name : String) (num_chunks : Nat) :
    ∀ (len i : Nat) (k : String),
      k ∈ chunkNames file_name num_chunks i len ↔
        ∃ j, j < len ∧ k = chunk_name file_name num_chunks (i + j) := by
  intro len
  induction len with
  | zero => intro i k; simp [chunkNames]
  | succ len ih =>
    intro i k
    rw [chunkNames, List.mem_cons, ih (i + 1) k]
    constructor
    · rintro (rfl | ⟨j, hj, rfl⟩)
      · exact ⟨0, by omega, by simp⟩
      · exact ⟨j + 1, by omega, by rw [show i + (j + 1) = i + 1 + j by omega]⟩
    · rintro ⟨j, hj, rfl⟩
      cases j with
      | zero => exact Or.inl (by simp)
      | succ j =>
        exact Or.inr ⟨j, by omega, by rw [show i + (j + 1) = i + 1 + j by omega]⟩

lemma chunkNames_nodup (file_name : String) (num_chunks : Nat) (hn : 1 < num_chunks) :
    ∀ len i : Nat, (chunkNames file_name num_chunks i len).Nodup := by
  intro len
  induction len with
  | zero => intro i; simp [chunkNames]
  | succ len ih =>
    intro i
    rw [chunkNames]
    refine List.nodup_cons.mpr ⟨?_, ih (i + 1)⟩
    intro hmem
    obtain ⟨j, hj, he⟩ :=
      (mem_chunkNames file_name num_chunks len (i + 1) _).mp hmem
    have := chunk_name_inj file_name num_chunks hn he
    omega

lemma chunkNames_self_nodup (file_name : String) (num_chunks : Nat) :
    (chunkNames file_name num_chunks 0 num_chunks).Nodup := by
  match num_chunks with
  | 0 => simp [chunkNames]
  | 1 => simp [chunkNames]
  | n + 2 => exact chunkNames_nodup file_name (n + 2) (by omega) (n + 2) 0

lemma keysUnion_eq_append (ns : List String) :
    ∀ ks : List String, (∀ k ∈ ns, k ∉ ks) → ns.Nodup →
      keysUnion ks ns = ks ++ ns := by
  induction ns with
  | nil => intro ks _ _; simp [keysUnion]
  | cons n ns ih =>
    intro ks hdisj hnd
    rw [keysUnion, if_neg (hdisj n (by simp))]
    rw [ih (ks ++ [n]) ?_ (List.nodup_cons.mp hnd).2, List.append_assoc]
    · rfl
    · intro k hk hmem
      rcases List.mem_append.mp hmem with hks | hn
      · exact hdisj k (by simp [hk]) hks
      · have : k = n := by simpa using hn
        subst this
        exact (List.nodup_cons.mp hnd).1 hk

lemma chunkNames_getElem? (file_name : String) (num_chunks : Nat) :
    ∀ (len i j : Nat), j < len →
      (chunkNames file_name num_chunks i len)[j]? =
        some (chunk_name file_name num_chunks (i + j)) := by
  intro len
  induction len with
  | zero => intro i j hj; omega
  | succ len ih =>
    intro i j hj
    rw [chunkNames]
    cases j with
    | zero => simp
    | succ j =>
      rw [List.getElem?_cons_succ, ih (i + 1) j (by omega),
        show i + 1 + j = i + (j + 1) by omega]

/-- Claim C9: `process_document_chunks` keys a lone chunk by the original
file name, and when there are `n > 1` chunks it keys the `i`-th chunk
(1-based) by `"<filename> (Part i/n)"`. -/
theorem chunk_keys_derived_names (get_summary : String → Except String String)
    (file_name : String) (chunks : List String) (chunk_tokens : List Nat)
    (maps : DocMaps) (hlen : chunks.length = chunk_tokens.length)
    (hok : process_document_chunks get_summary file_name chunks chunk_tokens = .ok maps) :
    dictKeys maps.documents = chunkNames file_name chunks.length 0 chunks.length ∧
      (chunks.length = 1 → dictKeys maps.documents = [file_name]) ∧
      (∀ i < chunks.length, 1 < chunks.length →
        (dictKeys maps.documents)[i]? =
          some (file_name ++ " (Part " ++ toString (i + 1) ++ "/" ++
            toString chunks.length ++ ")")) := by
  have hzip : (chunks.zip chunk_tokens).length = chunks.length := by
    rw [List.length_zip, hlen, Nat.min_self]
  have h1 := (chunksLoop_ok_keys get_summary file_name chunks.length
    (chunks.zip chunk_tokens) 0 ⟨[], [], []⟩ maps hok).1
  rw [hzip] at h1
  have hkeys : dictKeys maps.documents =
      chunkNames file_name chunks.length 0 chunks.length := by
    rw [h1]
    have := keysUnion_eq_append (chunkNames file_name chunks.length 0 chunks.length)
      [] (by simp) (chunkNames_self_nodup file_name chunks.length)
    simpa using this
  refine ⟨hkeys, ?_, ?_⟩
  · intro hone
    rw [hkeys, hone, chunkNames, chunkNames, chunk_name, if_neg (by omega)]
  · intro i hi hn
    rw [hkeys, chunkNames_getElem? file_name chunks.length chunks.length 0 i hi,
      chunk_name, if_pos hn, Nat.zero_add]

theorem chunk_keys_derived_names_witness :
    (["a", "b"] : List String).length = ([1, 2] : List Nat).length ∧
      process_document_chunks (fun s => .ok s) "f.pdf" ["a", "b"] [1, 2] =
        .ok ⟨[("f.pdf (Part 1/2)", "a"), ("f.pdf (Part 2/2)", "b")],
             [("f.pdf (Part 1/2)", "a"), ("f.pdf (Part 2/2)", "b")],
             [("f.pdf (Part 1/2)", 1), ("f.pdf (Part 2/2)", 2)]⟩ ∧
      dictKeys (⟨[("f.pdf (Part 1/2)", "a"), ("f.pdf (Part 2/2)", "b")],
             [("f.pdf (Part 1/2)", "a"), ("f.pdf (Part 2/2)", "b")],
             [("f.pdf (Part 1/2)", 1), ("f.pdf (Part 2/2)", 2)]⟩ : DocMaps).documents =
        chunkNames "f.pdf" 2 0 2 :=
  ⟨rfl, rfl,
   (chunk_keys_derived_names (fun s => .ok s) "f.pdf" ["a", "b"] [1, 2] _ rfl rfl).1⟩

end DocQnA
